import Mathlib

/-!
Shallow embedding of `pkg/kwokctl/runtime/util.go` (kwok): the component
argument-patch merge resolver (`applyComponentPatchArgs`,
`getKeyValueFromArg`), the component executor (`ForeachComponents`), and
log-volume derivation (`GetLogVolumes`), together with theorems settling
the specification claims about them.

Go strings are modelled as Lean `String`, with the relevant `strings`
package operations re-implemented over `List Char` so that every
definition is kernel-computable:
  - `strings.Split(arg, "=")[0]` is the prefix of the char list before the
    first `'='` (`List.takeWhile`);
  - `strings.ReplaceAll(s, old, "")` is `removeAll`, which deletes the
    leftmost occurrence of `old` repeatedly (non-overlapping, left to
    right), implemented with a fuel argument equal to the length of `s`;
  - `sort.Strings` is insertion sort by the lexicographic order `strLe`
    (proved equivalent to Mathlib's `String` order below).
-/

namespace KwokUtil

/-- Byte-wise (here: character-wise) lexicographic comparison used to model
`sort.Strings`. -/
def charListLe : List Char → List Char → Bool
  | [], _ => true
  | _ :: _, [] => false
  | a :: as, b :: bs =>
    if a < b then true
    else if b < a then false
    else charListLe as bs

/-- Lexicographic `≤` on strings, computable in the kernel. -/
def strLe (s t : String) : Bool :=
  charListLe s.data t.data

/-- `strings.ReplaceAll s pat ""`: repeatedly delete the leftmost
occurrence of `pat`, scanning left to right without overlap.  The fuel
argument makes the recursion structural; `removeAll` instantiates it with
the length of `s`, which suffices because every step consumes at least one
character of `s`. -/
def removeAllAux (pat : List Char) : Nat → List Char → List Char
  | _, [] => []
  | 0, s => s
  | fuel + 1, c :: rest =>
    if pat.isPrefixOf (c :: rest) ∧ pat ≠ [] then
      removeAllAux pat fuel ((c :: rest).drop pat.length)
    else
      c :: removeAllAux pat fuel rest

/-- `strings.ReplaceAll s pat ""` on char lists. -/
def removeAll (s pat : List Char) : List Char :=
  removeAllAux pat s.length s

/-- Mount descriptor host-path types (`internalversion.HostPathType`,
mirroring the Kubernetes `HostPathType` constants). -/
inductive HostPathType where
  | Unset
  | DirectoryOrCreate
  | Directory
  | FileOrCreate
  | File
  deriving DecidableEq, Repr

/-- The constant `internalversion.HostPathDirectoryOrCreate`. -/
def HostPathDirectoryOrCreate : HostPathType := HostPathType.DirectoryOrCreate

/-- Mount descriptor (`internalversion.Volume`), with the fields used by
`util.go`. -/
structure Volume where
  Name : String
  HostPath : String
  MountPath : String
  PathType : HostPathType
  ReadOnly : Bool
  deriving DecidableEq, Repr

/-- Environment entry (`internalversion.Env`).  Modelled from the spec:
the spec only says components carry an ordered sequence of environment
entries; `util.go` appends them verbatim and never inspects them. -/
structure Env where
  Name : String
  Value : String
  deriving DecidableEq, Repr

/-- A component (`internalversion.Component`), with the fields
`util.go` reads or writes. -/
structure Component where
  Name : String
  Args : List String
  Envs : List Env
  Volumes : List Volume
  deriving DecidableEq, Repr

/-- One extra-args directive (`internalversion.ExtraArgs`). -/
structure ExtraArgs where
  Key : String
  Value : String
  Override : Bool
  deriving DecidableEq, Repr

/-- A component patch (`internalversion.ComponentPatches`). -/
structure ComponentPatches where
  Name : String
  ExtraArgs : List ExtraArgs
  ExtraVolumes : List Volume
  ExtraEnvs : List Env
  deriving DecidableEq, Repr

/-- `getKeyValueFromArg` from `util.go`:
guards `!strings.Contains(arg, "=")` and `!strings.HasPrefix(arg, "--")`
return `("", "")`; otherwise `strstmp[0]` is the text before the first
`'='` and the result is
`(strings.ReplaceAll(strstmp[0], "--", ""), strings.ReplaceAll(arg, strstmp[0]+"=", ""))`. -/
def getKeyValueFromArg (arg : String) : String × String :=
  if ¬ ('=' ∈ arg.data) then ("", "")
  else if ¬ (['-', '-'].isPrefixOf arg.data) then ("", "")
  else
    let strstmp0 := arg.data.takeWhile (fun c => ¬ (c = '='))
    (⟨removeAll strstmp0 ['-', '-']⟩, ⟨removeAll arg.data (strstmp0 ++ ['='])⟩)

/-- The Go map `map[string][]string` modelled as an association list
(the final args are sorted, so the iteration order of the map does not
affect the result). -/
abbrev ArgsMap := List (String × List String)

/-- `argsmap[k]` with its `ok` flag: `some values` when present. -/
def mapGet (m : ArgsMap) (k : String) : Option (List String) :=
  (m.find? (fun p => p.1 == k)).map (fun p => p.2)

/-- `argsmap[k] = v`: replace the entry in place, or add it. -/
def mapSet (m : ArgsMap) (k : String) (v : List String) : ArgsMap :=
  match m with
  | [] => [(k, v)]
  | (k', v') :: rest => if k' == k then (k, v) :: rest else (k', v') :: mapSet rest k v

/-- The body of the first loop of `applyComponentPatchArgs`: add one
parsed token to the args map, skipping it when its parsed key or value is
empty. -/
def argsToMapStep (m : ArgsMap) (arg : String) : ArgsMap :=
  let kv := getKeyValueFromArg arg
  if kv.1 = "" ∨ kv.2 = "" then m
  else
    let values := match mapGet m kv.1 with
      | some vs => vs
      | none => []
    mapSet m kv.1 (values ++ [kv.2])

/-- The first loop of `applyComponentPatchArgs`: build the args map from
the component's current args. -/
def argsToMap (args : List String) : ArgsMap :=
  args.foldl argsToMapStep []

/-- The body of the second loop of `applyComponentPatchArgs`: apply one
extra-args directive to the accumulated map. -/
def applyExtraArg (m : ArgsMap) (a : ExtraArgs) : ArgsMap :=
  let existOldArg := (mapGet m a.Key).isSome
  let values₀ := match mapGet m a.Key with
    | some vs => vs
    | none => []
  let values := if existOldArg && a.Override then [] else values₀
  mapSet m a.Key (values ++ [a.Value])

/-- The third loop of `applyComponentPatchArgs`: rebuild the token list,
one `fmt.Sprintf("--%s=%s", k, v1)` per (key, value) pair. -/
def argsFromMap (m : ArgsMap) : List String :=
  m.foldl (fun acc p => acc ++ p.2.map (fun v1 => "--" ++ p.1 ++ "=" ++ v1)) []

/-- `applyComponentPatchArgs` from `util.go`. -/
def applyComponentPatchArgs (component : Component) (patch : ComponentPatches) : Component :=
  if patch.Name ≠ component.Name then component
  else
    let argsmap := patch.ExtraArgs.foldl applyExtraArg (argsToMap component.Args)
    { component with
        Args := List.insertionSort (fun a b => strLe a b = true) (argsFromMap argsmap) }

/-- `applyComponentPatch` from `util.go`: non-matching patches return
immediately; matching ones append extra volumes and envs, then merge the
args. -/
def applyComponentPatch (component : Component) (patch : ComponentPatches) : Component :=
  if patch.Name ≠ component.Name then component
  else
    applyComponentPatchArgs
      { component with
          Volumes := component.Volumes ++ patch.ExtraVolumes,
          Envs := component.Envs ++ patch.ExtraEnvs }
      patch

/-- `ApplyComponentPatches` from `util.go`. -/
def ApplyComponentPatches (component : Component) (patches : List ComponentPatches) : Component :=
  patches.foldl applyComponentPatch component

/-- Tokens whose parsed key or parsed value is empty. -/
def keptArg (arg : String) : Bool :=
  ¬ ((getKeyValueFromArg arg).1 = "" ∨ (getKeyValueFromArg arg).2 = "")

/-- `containsSub s pat = true` iff `pat` occurs as a contiguous substring
of `s` (`strings.Contains`). -/
def containsSub (s pat : List Char) : Bool :=
  match s with
  | [] => pat.isEmpty
  | _ :: rest => pat.isPrefixOf s || containsSub rest pat

/-! ### The executor (`ForeachComponents`)

`Cluster.Config` and `components.GroupByLinks` are external to `util.go`;
the executor is modelled directly on the ordered groups they produce.  The
caller-supplied action is modelled as a pure function
`Component → Option E` (`none` = success).  Real-time completion order of
an `errgroup` batch is not expressible in a shallow embedding, so it is
abstracted as a parameter `sched` — an arbitrary permutation of the batch
giving the order in which results surface; `errgroup.Wait` returns the
first error in that order, after launching every member of the batch. -/

/-- One dependency group run to completion.  A singleton group is invoked
inline; a larger group is launched concurrently and `Wait` returns the
first error in completion (`sched`) order. -/
def groupRun {E : Type} (sched : List Component → List Component)
    (action : Component → Option E) (group : List Component) : Option E :=
  match group with
  | [c] => action c
  | _ => (sched group).findSome? action

/-- The ordered (`order = true`, non-dry-run) loop of `ForeachComponents`:
groups strictly in sequence, stopping at the first failing group. -/
def orderedRun {E : Type} (sched : List Component → List Component)
    (action : Component → Option E) : List (List Component) → Option E
  | [] => none
  | g :: gs =>
    match groupRun sched action g with
    | some e => some e
    | none => orderedRun sched action gs

/-- The inner dry-run loop: strictly sequential, first error aborts. -/
def dryRunGroup {E : Type} (action : Component → Option E) : List Component → Option E
  | [] => none
  | c :: cs =>
    match action c with
    | some e => some e
    | none => dryRunGroup action cs

/-- The dry-run branch of `ForeachComponents`: all groups, in order,
strictly sequentially. -/
def dryRun {E : Type} (action : Component → Option E) : List (List Component) → Option E
  | [] => none
  | g :: gs =>
    match dryRunGroup action g with
    | some e => some e
    | none => dryRun action gs

/-- The unordered (`order = false`, non-dry-run) branch: every component
of every group launched under one shared scope; the first error in
completion order is returned. -/
def unorderedRun {E : Type} (sched : List Component → List Component)
    (action : Component → Option E) (groups : List (List Component)) : Option E :=
  (sched groups.flatten).findSome? action

/-- `ForeachComponents` from `util.go` (on the groups produced by the
external `GroupByLinks`): reverse the group order if requested, then
dispatch on dry-run and on `order`. -/
def ForeachComponents {E : Type} (isDryRun reverse order : Bool)
    (sched : List Component → List Component) (action : Component → Option E)
    (groups₀ : List (List Component)) : Option E :=
  let groups := if reverse then groups₀.reverse else groups₀
  if isDryRun then dryRun action groups
  else if order then orderedRun sched action groups
  else unorderedRun sched action groups

/-- The components whose action is invoked by the ordered loop: every
member of each group up to and including the first failing group
(`errgroup` launches the whole batch before waiting). -/
def orderedInvoked {E : Type} (sched : List Component → List Component)
    (action : Component → Option E) : List (List Component) → List Component
  | [] => []
  | g :: gs =>
    match groupRun sched action g with
    | some _ => g
    | none => g ++ orderedInvoked sched action gs

/-- The components whose action is invoked by the dry-run loop: the
sequential prefix up to and including the first failing component. -/
def dryInvoked {E : Type} (action : Component → Option E) : List Component → List Component
  | [] => []
  | c :: cs =>
    match action c with
    | some _ => [c]
    | none => c :: dryInvoked action cs

/-! ### Log volume derivation (`GetLogVolumes`) -/

/-- One log/attach entry.  Modelled from the spec: the `internalversion`
log/attach resource types are external to `util.go`; each entry exposes a
log-file path field (`LogsFile`). -/
structure LogSpecEntry where
  LogsFile : String

/-- Modelled from the spec: `Logs.Spec.Logs` is the list of log entries of
a `Logs` resource. -/
structure LogsSpec where
  Logs : List LogSpecEntry

/-- Modelled from the spec: a `Logs` resource. -/
structure Logs where
  Spec : LogsSpec

/-- Modelled from the spec: `ClusterLogs.Spec.Logs`. -/
structure ClusterLogsSpec where
  Logs : List LogSpecEntry

/-- Modelled from the spec: a `ClusterLogs` resource. -/
structure ClusterLogs where
  Spec : ClusterLogsSpec

/-- Modelled from the spec: `Attach.Spec.Attaches`. -/
structure AttachSpec where
  Attaches : List LogSpecEntry

/-- Modelled from the spec: an `Attach` resource. -/
structure Attach where
  Spec : AttachSpec

/-- Modelled from the spec: `ClusterAttach.Spec.Attaches`. -/
structure ClusterAttachSpec where
  Attaches : List LogSpecEntry

/-- Modelled from the spec: a `ClusterAttach` resource. -/
structure ClusterAttach where
  Spec : ClusterAttachSpec

/-- `mountDirs[path.Dir(l.LogsFile)] = struct{}{}`: the Go string-set is
modelled as an insertion-ordered duplicate-free list (its key set is what
matters: the keys are sorted before use). -/
def insertKey (dirs : List String) (d : String) : List String :=
  if d ∈ dirs then dirs else dirs ++ [d]

/-- The directory of every log file of every spec, in the order the four
loops of `GetLogVolumes` visit them.  `path.Dir` is external to `util.go`
and is abstracted as the parameter `dir`. -/
def collectedLogDirs (dir : String → String) (logs : List Logs) (clusterLogs : List ClusterLogs)
    (attaches : List Attach) (clusterAttaches : List ClusterAttach) : List String :=
  ((logs.map fun log => log.Spec.Logs).flatten ++
   (clusterLogs.map fun cl => cl.Spec.Logs).flatten ++
   (attaches.map fun a => a.Spec.Attaches).flatten ++
   (clusterAttaches.map fun ca => ca.Spec.Attaches).flatten).map
    (fun l => dir l.LogsFile)

/-- The final loop of `GetLogVolumes`: one read-only, create-if-missing
volume per directory, named `log-volume-<index>` by position
(`fmt.Sprintf("log-volume-%d", i)`), mounting the directory onto
itself. -/
def volumesFrom : Nat → List String → List Volume
  | _, [] => []
  | i, d :: ds =>
    { Name := "log-volume-" ++ Nat.repr i, HostPath := d, MountPath := d,
      PathType := HostPathDirectoryOrCreate, ReadOnly := true } :: volumesFrom (i + 1) ds

/-- `GetLogVolumes` from `util.go`: collect the directory of every log
file into a set, sort the keys (`sort.Strings`), and emit one volume per
directory. -/
def GetLogVolumes (dir : String → String) (logs : List Logs) (clusterLogs : List ClusterLogs)
    (attaches : List Attach) (clusterAttaches : List ClusterAttach) : List Volume :=
  let mountDirs :=
    (collectedLogDirs dir logs clusterLogs attaches clusterAttaches).foldl insertKey []
  let logsDirs := List.insertionSort (fun a b => strLe a b = true) mountDirs
  volumesFrom 0 logsDirs

/-- Decimal value of a digit string; a left inverse of `Nat.toDigits 10`. -/
def digitsVal (l : List Char) : Nat :=
  l.foldl (fun a c => a * 10 + (c.toNat - 48)) 0

/-! ### Association-list map lemmas -/

theorem mapGet_mapSet_self (m : ArgsMap) (k : String) (v : List String) :
    mapGet (mapSet m k v) k = some v := by
  induction m with
  | nil => simp [mapSet, mapGet]
  | cons p rest ih =>
    cases h : (p.1 == k) with
    | true => simp [mapSet, mapGet, h]
    | false =>
      simp only [mapSet, h, Bool.false_eq_true, if_false]
      simp only [mapGet, List.find?, h] at ih ⊢
      exact ih

theorem applyExtraArg_override (m : ArgsMap) (a : ExtraArgs)
    (hov : a.Override = true) (hex : (mapGet m a.Key).isSome = true) :
    mapGet (applyExtraArg m a) a.Key = some [a.Value] := by
  unfold applyExtraArg
  rw [hov, hex]
  simpa using mapGet_mapSet_self m a.Key [a.Value]

theorem applyExtraArg_keep (m : ArgsMap) (a : ExtraArgs) (hov : a.Override = false) :
    mapGet (applyExtraArg m a) a.Key = some ((mapGet m a.Key).getD [] ++ [a.Value]) := by
  unfold applyExtraArg
  rw [hov]
  cases h : mapGet m a.Key with
  | none => simpa [h] using mapGet_mapSet_self m a.Key [a.Value]
  | some vs => simpa [h] using mapGet_mapSet_self m a.Key (vs ++ [a.Value])

theorem applyExtraArg_absent (m : ArgsMap) (a : ExtraArgs) (hab : mapGet m a.Key = none) :
    mapGet (applyExtraArg m a) a.Key = some [a.Value] := by
  unfold applyExtraArg
  rw [hab]
  simpa using mapGet_mapSet_self m a.Key [a.Value]

/-! ### Claims C1, C2, C6 -/

/-- C1: for every matching override directive, if the key currently has any
value(s) in the accumulated argument mapping at the moment the directive
runs, all current values are discarded and the directive's value becomes
the sole value for that key; concretely, baseline
`--etcd-servers=http://localhost:2379` patched by
`{etcd-servers, http://192.168.66.2:3379, override=true}` yields exactly
one `etcd-servers` entry carrying the new value. -/
theorem override_discards_current_values :
    (∀ (m : ArgsMap) (a : ExtraArgs), a.Override = true → (mapGet m a.Key).isSome = true →
      mapGet (applyExtraArg m a) a.Key = some [a.Value])
    ∧ (applyComponentPatchArgs
        ⟨"test", ["--etcd-servers=http://localhost:2379", "--etcd-prefix=/registry"], [], []⟩
        ⟨"test", [⟨"etcd-servers", "http://192.168.66.2:3379", true⟩], [], []⟩).Args
      = ["--etcd-prefix=/registry", "--etcd-servers=http://192.168.66.2:3379"] :=
  ⟨applyExtraArg_override, by decide⟩

/-- Witness for C1: a key already bound (here by a previous directive's
value) is overridden to the sole new value. -/
theorem override_discards_current_values_witness :
    mapGet (applyExtraArg [("etcd-servers", ["http://localhost:2379"])]
      ⟨"etcd-servers", "http://192.168.66.2:3379", true⟩) "etcd-servers"
      = some ["http://192.168.66.2:3379"] :=
  override_discards_current_values.1
    [("etcd-servers", ["http://localhost:2379"])]
    ⟨"etcd-servers", "http://192.168.66.2:3379", true⟩ (by decide) (by decide)

/-- C2: a non-override directive (and an override directive whose key has
no current value) appends its value to the existing value sequence,
retaining duplicates; applying the same non-override directive twice
yields both equal values; concretely, baseline `--etcd-prefix=/registry`
patched by `{etcd-prefix, /test, override=false}` yields exactly the two
entries `/registry` and `/test`. -/
theorem accumulate_appends_value :
    (∀ (m : ArgsMap) (a : ExtraArgs), a.Override = false →
      mapGet (applyExtraArg m a) a.Key = some ((mapGet m a.Key).getD [] ++ [a.Value]))
    ∧ (∀ (m : ArgsMap) (a : ExtraArgs), mapGet m a.Key = none →
      mapGet (applyExtraArg m a) a.Key = some [a.Value])
    ∧ (∀ (m : ArgsMap) (a : ExtraArgs), a.Override = false →
      mapGet (applyExtraArg (applyExtraArg m a) a) a.Key =
        some ((mapGet m a.Key).getD [] ++ [a.Value, a.Value]))
    ∧ (applyComponentPatchArgs
        ⟨"test", ["--etcd-servers=http://localhost:2379", "--etcd-prefix=/registry"], [], []⟩
        ⟨"test", [⟨"etcd-prefix", "/test", false⟩], [], []⟩).Args
      = ["--etcd-prefix=/registry", "--etcd-prefix=/test",
         "--etcd-servers=http://localhost:2379"] := by
  refine ⟨applyExtraArg_keep, applyExtraArg_absent, ?_, by decide⟩
  intro m a hov
  rw [applyExtraArg_keep _ _ hov, applyExtraArg_keep _ _ hov]
  simp

/-- Witness for C2: applying the same non-override extra-arg twice on a
populated key keeps the baseline value and both (equal) patch values. -/
theorem accumulate_appends_value_witness :
    mapGet (applyExtraArg (applyExtraArg [("etcd-prefix", ["/registry"])]
        ⟨"etcd-prefix", "/test", false⟩) ⟨"etcd-prefix", "/test", false⟩) "etcd-prefix"
      = some ["/registry", "/test", "/test"] :=
  accumulate_appends_value.2.2.1 [("etcd-prefix", ["/registry"])]
    ⟨"etcd-prefix", "/test", false⟩ (by decide)

/-- C6: a patch whose name differs from the component's name leaves the
component (args, envs, volumes — every modelled field) unchanged. -/
theorem nonmatching_patch_is_noop (c : Component) (p : ComponentPatches)
    (h : p.Name ≠ c.Name) :
    applyComponentPatch c p = c ∧ applyComponentPatchArgs c p = c := by
  constructor <;> simp [applyComponentPatch, applyComponentPatchArgs, h]

/-- Witness for C6: a patch named `other` leaves component `test`
untouched. -/
theorem nonmatching_patch_is_noop_witness :
    applyComponentPatch ⟨"test", ["--a=b"], [⟨"E", "1"⟩], []⟩
        ⟨"other", [⟨"a", "c", true⟩], [⟨"v", "/h", "/m", HostPathDirectoryOrCreate, true⟩],
          [⟨"F", "2"⟩]⟩
      = ⟨"test", ["--a=b"], [⟨"E", "1"⟩], []⟩ :=
  (nonmatching_patch_is_noop _ _ (by decide)).1

/-! ### Claims C5 and C10 -/

/-- Every token emitted by the rebuild loop has the shape
`--<key>=<value>`. -/
theorem mem_argsFromMap_shape {t : String} {m : ArgsMap} (h : t ∈ argsFromMap m) :
    ∃ k v, t = "--" ++ k ++ "=" ++ v := by
  have aux : ∀ (m : ArgsMap) (acc : List String),
      t ∈ m.foldl (fun acc p => acc ++ p.2.map (fun v1 => "--" ++ p.1 ++ "=" ++ v1)) acc →
      t ∈ acc ∨ ∃ k v, t = "--" ++ k ++ "=" ++ v := by
    intro m
    induction m with
    | nil => intro acc h; exact Or.inl h
    | cons p rest ih =>
      intro acc h
      rcases ih _ h with h' | h'
      · rcases List.mem_append.mp h' with h'' | h''
        · exact Or.inl h''
        · rcases List.mem_map.mp h'' with ⟨v, _, rfl⟩
          exact Or.inr ⟨p.1, v, rfl⟩
      · exact Or.inr h'
  rcases aux m [] (by simpa [argsFromMap] using h) with h' | h'
  · simp at h'
  · exact h'

theorem data_rebuilt_token (k v : String) :
    ("--" ++ k ++ "=" ++ v).data = '-' :: '-' :: (k.data ++ '=' :: v.data) := by
  have h1 : "--".data = ['-', '-'] := rfl
  have h2 : "=".data = ['='] := rfl
  simp [String.data_append, h1, h2]

/-- C5: the merge is a total function (it is a Lean `def`, defined on all
inputs) and, for a matching patch, baseline tokens that are malformed —
lacking the `--` prefix or lacking an `=` — are silently excluded from the
rebuilt args (they parse to `("", "")` and every rebuilt token starts with
`--` and contains `=`). -/
theorem malformed_tokens_silently_dropped (c : Component) (p : ComponentPatches)
    (hm : p.Name = c.Name) (arg : String)
    (hmal : ¬ (['-', '-'].isPrefixOf arg.data) = true ∨ ¬ ('=' ∈ arg.data)) :
    getKeyValueFromArg arg = ("", "") ∧ arg ∉ (applyComponentPatchArgs c p).Args := by
  constructor
  · unfold getKeyValueFromArg
    rcases hmal with h | h
    · by_cases he : '=' ∈ arg.data
      · simp [he, h]
      · simp [he]
    · simp [h]
  · intro hmem
    have hne : ¬ p.Name ≠ c.Name := by simpa using hm
    rw [applyComponentPatchArgs, if_neg hne] at hmem
    simp only [List.mem_insertionSort] at hmem
    obtain ⟨k, v, rfl⟩ := mem_argsFromMap_shape hmem
    rcases hmal with h | h
    · exact h (by simp [data_rebuilt_token, List.isPrefixOf])
    · exact h (by simp [data_rebuilt_token])

/-- Witness for C5: the token `etcd-servers=x` (no `--` prefix) parses to
`("", "")` and does not survive the merge. -/
theorem malformed_tokens_silently_dropped_witness :
    getKeyValueFromArg "etcd-servers=x" = ("", "")
    ∧ "etcd-servers=x" ∉ (applyComponentPatchArgs
        ⟨"test", ["etcd-servers=x", "--a=b"], [], []⟩ ⟨"test", [], [], []⟩).Args :=
  malformed_tokens_silently_dropped
    ⟨"test", ["etcd-servers=x", "--a=b"], [], []⟩ ⟨"test", [], [], []⟩
    (by decide) "etcd-servers=x" (Or.inl (by decide))

theorem argsToMap_filter_keptArg (args : List String) :
    argsToMap (args.filter keptArg) = argsToMap args := by
  have aux : ∀ (args : List String) (acc : ArgsMap),
      (args.filter keptArg).foldl argsToMapStep acc = args.foldl argsToMapStep acc := by
    intro args
    induction args with
    | nil => intro acc; rfl
    | cons a rest ih =>
      intro acc
      cases h : keptArg a with
      | true => simpa [List.filter, h] using ih (argsToMapStep acc a)
      | false =>
        have hdrop : argsToMapStep acc a = acc := by
          have : ((getKeyValueFromArg a).1 = "" ∨ (getKeyValueFromArg a).2 = "") := by
            by_contra hcon
            simp [keptArg, hcon] at h
          simp [argsToMapStep, this]
        simpa [List.filter, h, hdrop] using ih acc
  simpa [argsToMap] using aux args []

/-- C10: when a name-matching patch is applied, baseline tokens whose
parsed key or parsed value is empty (including syntactically well-formed
tokens with an empty value such as `--key=`) are dropped from the rebuilt
args exactly like malformed tokens: filtering them out of the baseline
first does not change the merge result at all.  Concretely, `--key=` is
absent from the rebuilt args. -/
theorem empty_key_or_value_dropped :
    (∀ (c : Component) (p : ComponentPatches), p.Name = c.Name →
      applyComponentPatchArgs { c with Args := c.Args.filter keptArg } p =
        applyComponentPatchArgs c p)
    ∧ (applyComponentPatchArgs
        ⟨"test", ["--key=", "--a=b"], [], []⟩ ⟨"test", [], [], []⟩).Args = ["--a=b"] := by
  constructor
  · intro c p hm
    have hne : ¬ p.Name ≠ c.Name := by simpa using hm
    unfold applyComponentPatchArgs
    simp only [hne, if_false, argsToMap_filter_keptArg]
  · decide

/-- Witness for C10: instantiating the filter-invariance at a concrete
component whose baseline holds `--key=` (empty value) and `--=v`
(empty key). -/
theorem empty_key_or_value_dropped_witness :
    applyComponentPatchArgs
        { Name := "test", Args := ["--key=", "--=v", "--a=b"].filter keptArg,
          Envs := [], Volumes := [] }
        ⟨"test", [], [], []⟩ =
      applyComponentPatchArgs ⟨"test", ["--key=", "--=v", "--a=b"], [], []⟩
        ⟨"test", [], [], []⟩ :=
  empty_key_or_value_dropped.1 ⟨"test", ["--key=", "--=v", "--a=b"], [], []⟩
    ⟨"test", [], [], []⟩ (by decide)

/-! ### The sort order: `strLe` agrees with the lexicographic order -/

theorem charListLe_iff : ∀ l₁ l₂ : List Char, charListLe l₁ l₂ = true ↔ ¬ List.Lex (· < ·) l₂ l₁
  | [], l₂ => iff_of_true rfl (List.Lex.not_nil_right _ _)
  | a :: as, [] => by
    simp only [charListLe, Bool.false_eq_true, false_iff, not_not]
    exact List.Lex.nil
  | a :: as, b :: bs => by
    unfold charListLe
    by_cases hab : a < b
    · simp only [hab, if_true, true_iff]
      intro h
      cases h with
      | rel h' => exact absurd hab (lt_asymm h')
      | cons h' => exact absurd hab (lt_irrefl _)
    · by_cases hba : b < a
      · simp only [hab, hba, if_true, if_false, Bool.false_eq_true, false_iff, not_not]
        exact List.Lex.rel hba
      · have heq : a = b := le_antisymm (not_lt.mp hba) (not_lt.mp hab)
        subst heq
        simp only [hab, if_false, lt_irrefl, if_neg (lt_irrefl a)]
        rw [charListLe_iff as bs]
        constructor
        · intro h h'
          exact h (List.Lex.cons_iff.mp h')
        · intro h h'
          exact h (List.Lex.cons h')

theorem strLe_iff (s t : String) : strLe s t = true ↔ s ≤ t := by
  rw [String.le_iff_toList_le, ← not_lt]
  exact charListLe_iff s.data t.data

instance strLeIsTotal : IsTotal String (fun a b => strLe a b = true) :=
  ⟨fun a b => by
    simp only [strLe_iff]
    exact le_total a b⟩

instance strLeIsTrans : IsTrans String (fun a b => strLe a b = true) :=
  ⟨fun a b c hab hbc => by
    rw [strLe_iff] at hab hbc ⊢
    exact le_trans hab hbc⟩

theorem sorted_applyComponentPatchArgs (c : Component) (p : ComponentPatches)
    (hm : p.Name = c.Name) :
    List.Sorted (· ≤ ·) (applyComponentPatchArgs c p).Args := by
  have hne : ¬ p.Name ≠ c.Name := by simpa using hm
  rw [applyComponentPatchArgs, if_neg hne]
  refine List.Pairwise.imp (fun h => (strLe_iff _ _).mp h) ?_
  exact List.sorted_insertionSort (fun a b => strLe a b = true) _

/-- C3: after applying a name-matching patch, the component's args are
rebuilt from the final key-to-values mapping — one `--key=value` token per
(key, value) pair (the rebuilt list is a permutation of the tokens
generated from the final mapping) — and the final args sequence is always
lexicographically sorted by full-string comparison. -/
theorem final_args_lexicographically_sorted (c : Component) (p : ComponentPatches)
    (hm : p.Name = c.Name) :
    List.Sorted (· ≤ ·) (applyComponentPatchArgs c p).Args
    ∧ (applyComponentPatchArgs c p).Args.Perm
        (argsFromMap (p.ExtraArgs.foldl applyExtraArg (argsToMap c.Args)))
    ∧ List.Sorted (· ≤ ·) (applyComponentPatch c p).Args := by
  have hne : ¬ p.Name ≠ c.Name := by simpa using hm
  refine ⟨sorted_applyComponentPatchArgs c p hm, ?_, ?_⟩
  · rw [applyComponentPatchArgs, if_neg hne]
    exact List.perm_insertionSort (fun a b => strLe a b = true) _
  · rw [applyComponentPatch, if_neg hne]
    exact sorted_applyComponentPatchArgs _ _ hm

/-- Witness for C3: concrete sortedness of a merged args list. -/
theorem final_args_lexicographically_sorted_witness :
    List.Sorted (· ≤ ·) (applyComponentPatchArgs
      ⟨"test", ["--etcd-servers=http://localhost:2379", "--etcd-prefix=/registry"], [], []⟩
      ⟨"test", [⟨"etcd-prefix", "/test", false⟩], [], []⟩).Args :=
  (final_args_lexicographically_sorted
    ⟨"test", ["--etcd-servers=http://localhost:2379", "--etcd-prefix=/registry"], [], []⟩
    ⟨"test", [⟨"etcd-prefix", "/test", false⟩], [], []⟩ (by decide)).1

/-! ### Claim C4: the tokenizer -/

theorem removeAllAux_nil (pat : List Char) (f : Nat) : removeAllAux pat f [] = [] := by
  cases f <;> rfl

theorem removeAllAux_irrel (pat : List Char) :
    ∀ (f₁ f₂ : Nat) (s : List Char), s.length ≤ f₁ → s.length ≤ f₂ →
      removeAllAux pat f₁ s = removeAllAux pat f₂ s := by
  intro f₁
  induction f₁ with
  | zero =>
    intro f₂ s h₁ _
    have hs : s = [] := List.eq_nil_of_length_eq_zero (Nat.le_zero.mp h₁)
    subst hs
    rw [removeAllAux_nil, removeAllAux_nil]
  | succ f ih =>
    intro f₂ s h₁ h₂
    cases s with
    | nil => rw [removeAllAux_nil, removeAllAux_nil]
    | cons c rest =>
      cases f₂ with
      | zero => simp at h₂
      | succ f₂' =>
        by_cases hcond : pat.isPrefixOf (c :: rest) = true ∧ pat ≠ []
        · have hlen : pat.length ≥ 1 := by
            cases pat with
            | nil => exact absurd rfl hcond.2
            | cons _ _ => simp
          rw [removeAllAux, removeAllAux, if_pos hcond, if_pos hcond]
          apply ih
          · simp only [List.length_drop, List.length_cons] at *
            omega
          · simp only [List.length_drop, List.length_cons] at *
            omega
        · rw [removeAllAux, removeAllAux, if_neg hcond, if_neg hcond]
          have := ih f₂' rest (by simpa using Nat.lt_succ_iff.mp (Nat.lt_of_lt_of_le (Nat.lt_succ_self _) h₁)) (by simpa using Nat.lt_succ_iff.mp (Nat.lt_of_lt_of_le (Nat.lt_succ_self _) h₂))
          rw [this]

theorem removeAll_of_containsSub_false :
    ∀ (s pat : List Char), containsSub s pat = false → removeAll s pat = s := by
  intro s
  induction s with
  | nil => intro pat _; rfl
  | cons c rest ih =>
    intro pat h
    simp only [containsSub, Bool.or_eq_false_iff] at h
    show removeAllAux pat (rest.length + 1) (c :: rest) = c :: rest
    rw [removeAllAux, if_neg (by simp [h.1])]
    exact congrArg (c :: ·) (ih pat h.2)

theorem removeAll_append_self (pat rest : List Char) (hne : pat ≠ []) :
    removeAll (pat ++ rest) pat = removeAll rest pat := by
  obtain ⟨c, ptail, rfl⟩ : ∃ c ptail, pat = c :: ptail := by
    cases pat with
    | nil => exact absurd rfl hne
    | cons c t => exact ⟨c, t, rfl⟩
  show removeAllAux _ ((c :: ptail) ++ rest).length ((c :: ptail) ++ rest) = _
  have hpre : (c :: ptail).isPrefixOf ((c :: ptail) ++ rest) = true :=
    List.isPrefixOf_iff_prefix.mpr (List.prefix_append _ _)
  have hstep : ((c :: ptail) ++ rest).length = (ptail ++ rest).length + 1 := by simp
  rw [hstep, List.cons_append, removeAllAux, if_pos ⟨by simp [hpre], by simp⟩]
  rw [← List.cons_append, List.drop_left]
  apply removeAllAux_irrel
  · simp
  · exact le_refl _

theorem takeWhile_append_stop (p : Char → Bool) :
    ∀ (l₁ l₂ : List Char) (c : Char), (∀ x ∈ l₁, p x = true) → p c = false →
      (l₁ ++ c :: l₂).takeWhile p = l₁ := by
  intro l₁
  induction l₁ with
  | nil => intro l₂ c _ hc; simp [List.takeWhile, hc]
  | cons a as ih =>
    intro l₂ c h hc
    simp only [List.cons_append, List.takeWhile, h a (by simp)]
    exact congrArg (a :: ·) (ih l₂ c (fun x hx => h x (by simp [hx])) hc)

/-- C4 counterexample: the token `--a--b=c` begins with the two-dash
prefix and contains exactly one `=`; the text between the prefix and the
`=` is `a--b` and the text after it is `c`, yet the tokenizer parses the
token as `("ab", "c")` — the claimed key/value description fails. -/
theorem tokenizer_counterexample :
    (['-', '-'].isPrefixOf "--a--b=c".data = true)
    ∧ ("--a--b=c".data.count '=' = 1)
    ∧ ("--a--b=c" = "--" ++ "a--b" ++ "=" ++ "c")
    ∧ getKeyValueFromArg "--a--b=c" = ("ab", "c")
    ∧ getKeyValueFromArg "--a--b=c" ≠ ("a--b", "c") := by
  refine ⟨by decide, by decide, by decide, by decide, by decide⟩

/-- C4 amended: a token is parsed as a key/value pair only if it begins
with `--` and contains at least one `=`; the key is the text before the
first `=` with every occurrence of `--` removed, and the value is the
token with every occurrence of `<text-before-first-=>=` removed.  When
the key part contains no further `--` and the value does not itself
contain the substring `--<key>=`, this coincides with the claim's
description: key = text between the prefix and the first `=`, value =
text after it. -/
theorem tokenizer_key_value_characterization :
    (∀ arg : String, (¬ (['-', '-'].isPrefixOf arg.data) = true ∨ '=' ∉ arg.data) →
      getKeyValueFromArg arg = ("", ""))
    ∧ (∀ k v : String, '=' ∉ k.data →
        containsSub k.data ['-', '-'] = false →
        containsSub v.data ('-' :: '-' :: (k.data ++ ['='])) = false →
        getKeyValueFromArg ("--" ++ k ++ "=" ++ v) = (k, v)) := by
  constructor
  · intro arg hmal
    unfold getKeyValueFromArg
    rcases hmal with h | h
    · by_cases he : '=' ∈ arg.data
      · simp [he, h]
      · simp [he]
    · simp [h]
  · intro k v hk hkdash hv
    have hdata : ("--" ++ k ++ "=" ++ v).data = '-' :: '-' :: (k.data ++ '=' :: v.data) :=
      data_rebuilt_token k v
    have hmem : '=' ∈ ("--" ++ k ++ "=" ++ v).data := by
      rw [hdata]; simp
    have hpre : (['-', '-'].isPrefixOf ("--" ++ k ++ "=" ++ v).data) = true := by
      rw [hdata]; simp [List.isPrefixOf]
    unfold getKeyValueFromArg
    rw [if_neg (by simp [hmem]), if_neg (by simp [hpre])]
    have htake : ("--" ++ k ++ "=" ++ v).data.takeWhile (fun c => ¬ (c = '=')) =
        '-' :: '-' :: k.data := by
      rw [hdata]
      have := takeWhile_append_stop (fun c => decide (¬ (c = '='))) ('-' :: '-' :: k.data)
        v.data '=' ?_ (by decide)
      · simpa using this
      · intro x hx
        simp only [List.mem_cons] at hx
        rcases hx with rfl | rfl | hx
        · decide
        · decide
        · simp only [decide_eq_true_eq]
          intro hcon
          exact hk (hcon ▸ hx)
    rw [htake]
    show (String.mk (removeAll ('-' :: '-' :: k.data) ['-', '-']),
          String.mk (removeAll ("--" ++ k ++ "=" ++ v).data (('-' :: '-' :: k.data) ++ ['=']))) =
        (k, v)
    rw [Prod.mk.injEq]
    constructor
    · show String.mk (removeAll (['-', '-'] ++ k.data) ['-', '-']) = k
      rw [removeAll_append_self _ _ (by simp), removeAll_of_containsSub_false _ _ hkdash]
    · have harg : ("--" ++ k ++ "=" ++ v).data =
          (('-' :: '-' :: k.data) ++ ['=']) ++ v.data := by
        rw [hdata]; simp
      rw [harg, removeAll_append_self _ _ (by simp)]
      rw [removeAll_of_containsSub_false _ _ (by simpa using hv)]

/-- Witness for C4's amended theorem: both conjuncts at concrete
tokens. -/
theorem tokenizer_key_value_characterization_witness :
    getKeyValueFromArg "etcd" = ("", "")
    ∧ getKeyValueFromArg ("--" ++ "etcd-servers" ++ "=" ++ "http://localhost:2379") =
        ("etcd-servers", "http://localhost:2379") :=
  ⟨tokenizer_key_value_characterization.1 "etcd" (Or.inr (by decide)),
   tokenizer_key_value_characterization.2 "etcd-servers" "http://localhost:2379"
     (by decide) (by decide) (by decide)⟩

theorem groupRun_eq_none_iff {E : Type} (sched : List Component → List Component)
    (hs : ∀ l, (sched l).Perm l) (action : Component → Option E) (g : List Component) :
    groupRun sched action g = none ↔ ∀ c ∈ g, action c = none := by
  match g with
  | [] =>
    simp only [groupRun, List.findSome?_eq_none_iff]
    constructor
    · intro _ c hc; simp at hc
    · intro _ c hc
      exact absurd ((hs []).mem_iff.mp hc) (by simp)
  | [c] => simp [groupRun]
  | c₁ :: c₂ :: rest =>
    simp only [groupRun, List.findSome?_eq_none_iff]
    constructor
    · intro h c hc
      exact h c ((hs _).mem_iff.mpr hc)
    · intro h c hc
      exact h c ((hs _).mem_iff.mp hc)

theorem groupRun_eq_some {E : Type} (sched : List Component → List Component)
    (hs : ∀ l, (sched l).Perm l) (action : Component → Option E) (g : List Component)
    (e : E) (h : groupRun sched action g = some e) : ∃ c ∈ g, action c = some e := by
  match g with
  | [] =>
    simp only [groupRun] at h
    obtain ⟨c, hc, hce⟩ := List.exists_of_findSome?_eq_some h
    exact absurd ((hs []).mem_iff.mp hc) (by simp)
  | [c] => exact ⟨c, by simp, h⟩
  | c₁ :: c₂ :: rest =>
    simp only [groupRun] at h
    obtain ⟨c, hc, hce⟩ := List.exists_of_findSome?_eq_some h
    exact ⟨c, (hs _).mem_iff.mp hc, hce⟩

theorem orderedRun_eq_none_iff {E : Type} (sched : List Component → List Component)
    (hs : ∀ l, (sched l).Perm l) (action : Component → Option E) :
    ∀ groups : List (List Component),
      orderedRun sched action groups = none ↔ ∀ c ∈ groups.flatten, action c = none := by
  intro groups
  induction groups with
  | nil => simp [orderedRun]
  | cons g gs ih =>
    rw [orderedRun]
    cases hg : groupRun sched action g with
    | some e =>
      simp only [List.flatten_cons]
      constructor
      · intro h; simp at h
      · intro h
        obtain ⟨c, hc, hce⟩ := groupRun_eq_some sched hs action g e hg
        exact absurd (h c (List.mem_append.mpr (Or.inl hc))) (by simp [hce])
    | none =>
      rw [ih]
      have hall := (groupRun_eq_none_iff sched hs action g).mp hg
      simp only [List.flatten_cons, List.mem_append]
      constructor
      · intro h c hc
        rcases hc with hc | hc
        · exact hall c hc
        · exact h c hc
      · intro h c hc
        exact h c (Or.inr hc)

theorem orderedRun_some_mem {E : Type} (sched : List Component → List Component)
    (hs : ∀ l, (sched l).Perm l) (action : Component → Option E) :
    ∀ (groups : List (List Component)) (e : E), orderedRun sched action groups = some e →
      ∃ c ∈ orderedInvoked sched action groups, action c = some e := by
  intro groups
  induction groups with
  | nil => intro e h; simp [orderedRun] at h
  | cons g gs ih =>
    intro e h
    rw [orderedRun] at h
    rw [orderedInvoked]
    cases hg : groupRun sched action g with
    | some e' =>
      rw [hg] at h
      cases h
      exact groupRun_eq_some sched hs action g e hg
    | none =>
      rw [hg] at h
      obtain ⟨c, hc, hce⟩ := ih e h
      exact ⟨c, List.mem_append.mpr (Or.inr hc), hce⟩

/-- C7: in ordered (non-dry-run) mode, when the groups before `g` all
succeed and some action in `g` fails, the loop invokes exactly the
components of the preceding groups and of `g` — components of subsequent
groups are never invoked — and returns `g`'s error; moreover, in both
non-dry-run modes the executor returns `none` iff every action returned
no error, and any returned error is the error of a single invoked action
(never an aggregate).  The completion order of a concurrent batch is
abstracted as a permutation `sched`. -/
theorem executor_first_failure_semantics {E : Type}
    (sched : List Component → List Component) (hs : ∀ l, (sched l).Perm l)
    (action : Component → Option E) :
    (∀ (gs₁ : List (List Component)) (g : List Component) (gs₂ : List (List Component)),
      (∀ g' ∈ gs₁, ∀ c ∈ g', action c = none) → (∃ c ∈ g, action c ≠ none) →
      orderedInvoked sched action (gs₁ ++ g :: gs₂) = gs₁.flatten ++ g
      ∧ ForeachComponents false false true sched action (gs₁ ++ g :: gs₂) =
          groupRun sched action g)
    ∧ (∀ groups : List (List Component),
        ForeachComponents false false true sched action groups = none ↔
          ∀ c ∈ groups.flatten, action c = none)
    ∧ (∀ (groups : List (List Component)) (e : E),
        ForeachComponents false false true sched action groups = some e →
          ∃ c ∈ orderedInvoked sched action groups, action c = some e)
    ∧ (∀ groups : List (List Component),
        ForeachComponents false false false sched action groups = none ↔
          ∀ c ∈ groups.flatten, action c = none)
    ∧ (∀ (groups : List (List Component)) (e : E),
        ForeachComponents false false false sched action groups = some e →
          ∃ c ∈ groups.flatten, action c = some e) := by
  have hfor : ∀ groups, ForeachComponents false false true sched action groups =
      orderedRun sched action groups := fun _ => rfl
  have hfor' : ∀ groups, ForeachComponents false false false sched action groups =
      unorderedRun sched action groups := fun _ => rfl
  refine ⟨?_, ?_, ?_, ?_, ?_⟩
  · intro gs₁
    induction gs₁ with
    | nil =>
      intro g gs₂ _ hfail
      cases hg : groupRun sched action g with
      | none =>
        obtain ⟨c, hc, hne⟩ := hfail
        exact absurd ((groupRun_eq_none_iff sched hs action g).mp hg c hc) hne
      | some e =>
        constructor
        · simp only [List.nil_append, orderedInvoked, hg]
          rfl
        · rw [hfor, List.nil_append, orderedRun, hg]
    | cons g' gs₁' ih =>
      intro g gs₂ hpre hfail
      have hg' : groupRun sched action g' = none :=
        (groupRun_eq_none_iff sched hs action g').mpr (hpre g' (by simp))
      have ihh := ih g gs₂ (fun x hx => hpre x (by simp [hx])) hfail
      constructor
      · rw [List.cons_append, orderedInvoked]
        rw [hg', ihh.1]
        simp [List.append_assoc]
      · rw [hfor, List.cons_append, orderedRun, hg']
        rw [← hfor]
        exact ihh.2
  · intro groups
    rw [hfor]
    exact orderedRun_eq_none_iff sched hs action groups
  · intro groups e h
    rw [hfor] at h
    exact orderedRun_some_mem sched hs action groups e h
  · intro groups
    rw [hfor']
    unfold unorderedRun
    rw [List.findSome?_eq_none_iff]
    constructor
    · intro h c hc
      exact h c ((hs _).mem_iff.mpr hc)
    · intro h c hc
      exact h c ((hs _).mem_iff.mp hc)
  · intro groups e h
    rw [hfor'] at h
    obtain ⟨c, hc, hce⟩ := List.exists_of_findSome?_eq_some h
    exact ⟨c, (hs _).mem_iff.mp hc, hce⟩

/-- Witness for C7: two groups `[A]`, `[B, C]`, the action fails on `A`:
only `A` is invoked and its error is returned. -/
theorem executor_first_failure_semantics_witness :
    orderedInvoked (fun l => l)
        (fun c : Component => if c.Name = "A" then some "boom" else (none : Option String))
        [[⟨"A", [], [], []⟩], [⟨"B", [], [], []⟩, ⟨"C", [], [], []⟩]]
      = List.flatten [] ++ [⟨"A", [], [], []⟩]
    ∧ ForeachComponents false false true (fun l => l)
        (fun c : Component => if c.Name = "A" then some "boom" else (none : Option String))
        [[⟨"A", [], [], []⟩], [⟨"B", [], [], []⟩, ⟨"C", [], [], []⟩]]
      = groupRun (fun l => l)
          (fun c : Component => if c.Name = "A" then some "boom" else (none : Option String))
          [⟨"A", [], [], []⟩] :=
  (executor_first_failure_semantics (fun l => l) (fun l => List.Perm.refl l)
      (fun c : Component => if c.Name = "A" then some "boom" else (none : Option String))).1
    [] [⟨"A", [], [], []⟩] [[⟨"B", [], [], []⟩, ⟨"C", [], [], []⟩]]
    (by simp) ⟨⟨"A", [], [], []⟩, by simp, by decide⟩

theorem dryRunGroup_append {E : Type} (action : Component → Option E) :
    ∀ l₁ l₂ : List Component, dryRunGroup action (l₁ ++ l₂) =
      match dryRunGroup action l₁ with
      | some e => some e
      | none => dryRunGroup action l₂ := by
  intro l₁
  induction l₁ with
  | nil => intro l₂; rfl
  | cons c cs ih =>
    intro l₂
    rw [List.cons_append, dryRunGroup, dryRunGroup]
    cases action c with
    | some e => rfl
    | none => exact ih l₂

theorem dryRun_eq_flatten {E : Type} (action : Component → Option E) :
    ∀ groups : List (List Component),
      dryRun action groups = dryRunGroup action groups.flatten := by
  intro groups
  induction groups with
  | nil => rfl
  | cons g gs ih =>
    rw [dryRun, List.flatten_cons, dryRunGroup_append]
    cases dryRunGroup action g with
    | some e => rfl
    | none => exact ih

/-- C8: in dry-run mode — whatever `reverse`, `order` and the concurrent
schedule are — the executor passes every component to the action strictly
sequentially, in group order then intra-group declaration order (the
flattened group sequence); the first error aborts the traversal
immediately, is returned, and nothing after the failing component is
invoked; with no failing action the result is `none`. -/
theorem dryrun_sequential_first_error {E : Type} :
    (∀ (sched : List Component → List Component) (action : Component → Option E)
        (order reverse : Bool) (groups : List (List Component)),
      ForeachComponents true reverse order sched action groups =
        dryRunGroup action (if reverse then groups.reverse else groups).flatten)
    ∧ (∀ (action : Component → Option E) (l₁ : List Component) (c : Component)
        (l₂ : List Component) (e : E), (∀ b ∈ l₁, action b = none) → action c = some e →
        dryRunGroup action (l₁ ++ c :: l₂) = some e
        ∧ dryInvoked action (l₁ ++ c :: l₂) = l₁ ++ [c])
    ∧ (∀ (action : Component → Option E) (l : List Component),
        (∀ c ∈ l, action c = none) → dryRunGroup action l = none) := by
  refine ⟨?_, ?_, ?_⟩
  · intro sched action order reverse groups
    show dryRun action _ = _
    exact dryRun_eq_flatten action _
  · intro action l₁
    induction l₁ with
    | nil =>
      intro c l₂ e _ hc
      rw [List.nil_append, dryRunGroup, dryInvoked, hc]
      exact ⟨rfl, rfl⟩
    | cons b bs ih =>
      intro c l₂ e hpre hc
      have hb : action b = none := hpre b (by simp)
      have ihh := ih c l₂ e (fun x hx => hpre x (by simp [hx])) hc
      rw [List.cons_append, dryRunGroup, dryInvoked, hb]
      exact ⟨ihh.1, by rw [ihh.2, List.cons_append]⟩
  · intro action l h
    induction l with
    | nil => rfl
    | cons c cs ih =>
      rw [dryRunGroup, h c (by simp)]
      exact ih fun x hx => h x (by simp [hx])

/-- Witness for C8: the action fails on `B`; `A` then `B` are invoked,
`C` is not, and `B`'s error is returned. -/
theorem dryrun_sequential_first_error_witness :
    dryRunGroup (fun c : Component => if c.Name = "B" then some "boom" else (none : Option String))
        ([⟨"A", [], [], []⟩] ++ ⟨"B", [], [], []⟩ :: [⟨"C", [], [], []⟩]) = some "boom"
    ∧ dryInvoked (fun c : Component => if c.Name = "B" then some "boom" else (none : Option String))
        ([⟨"A", [], [], []⟩] ++ ⟨"B", [], [], []⟩ :: [⟨"C", [], [], []⟩])
      = [⟨"A", [], [], []⟩] ++ [⟨"B", [], [], []⟩] :=
  dryrun_sequential_first_error.2.1
    (fun c : Component => if c.Name = "B" then some "boom" else (none : Option String))
    [⟨"A", [], [], []⟩] ⟨"B", [], [], []⟩ [⟨"C", [], [], []⟩] "boom"
    (by simp) (by decide)

/-! ### `Nat.repr` is injective (for uniqueness of `log-volume-<i>` names) -/

theorem toDigitsCore_append (f : Nat) :
    ∀ (n : Nat) (ds : List Char),
      Nat.toDigitsCore 10 f n ds = Nat.toDigitsCore 10 f n [] ++ ds := by
  induction f with
  | zero => intro n ds; simp [Nat.toDigitsCore]
  | succ f ih =>
    intro n ds
    simp only [Nat.toDigitsCore]
    by_cases h : n / 10 = 0
    · simp [h]
    · simp only [h, if_false]
      rw [ih (n / 10) (Nat.digitChar (n % 10) :: ds), ih (n / 10) [Nat.digitChar (n % 10)]]
      simp

theorem toDigitsCore_fuel_irrel (f₁ : Nat) :
    ∀ (f₂ n : Nat), n < f₁ → n < f₂ →
      Nat.toDigitsCore 10 f₁ n [] = Nat.toDigitsCore 10 f₂ n [] := by
  induction f₁ with
  | zero => intro f₂ n h₁ _; exact absurd h₁ (Nat.not_lt_zero n)
  | succ f ih =>
    intro f₂ n h₁ h₂
    cases f₂ with
    | zero => exact absurd h₂ (Nat.not_lt_zero n)
    | succ f₂' =>
      simp only [Nat.toDigitsCore]
      by_cases h : n / 10 = 0
      · simp [h]
      · simp only [h, if_false]
        rw [toDigitsCore_append f (n / 10), toDigitsCore_append f₂' (n / 10)]
        rw [ih f₂' (n / 10) (by omega) (by omega)]

theorem digitsVal_append_singleton (l : List Char) (c : Char) :
    digitsVal (l ++ [c]) = digitsVal l * 10 + (c.toNat - 48) := by
  simp [digitsVal, List.foldl_append]

theorem digitChar_val (m : Nat) (h : m < 10) : (Nat.digitChar m).toNat - 48 = m := by
  interval_cases m <;> decide

theorem digitsVal_toDigits (n : Nat) : digitsVal (Nat.toDigits 10 n) = n := by
  induction n using Nat.strong_induction_on with
  | _ n ih =>
    rw [Nat.toDigits]
    simp only [Nat.toDigitsCore]
    by_cases h : n / 10 = 0
    · simp only [h, if_true]
      have hval : digitsVal [Nat.digitChar (n % 10)] = (Nat.digitChar (n % 10)).toNat - 48 := by
        simp [digitsVal]
      rw [hval, digitChar_val _ (Nat.mod_lt n (by omega))]
      omega
    · simp only [h, if_false]
      rw [toDigitsCore_append n (n / 10)]
      rw [toDigitsCore_fuel_irrel n (n / 10 + 1) (n / 10) (by omega) (Nat.lt_succ_self _)]
      rw [show Nat.toDigitsCore 10 (n / 10 + 1) (n / 10) [] = Nat.toDigits 10 (n / 10) from rfl]
      rw [digitsVal_append_singleton, ih (n / 10) (by omega),
        digitChar_val _ (Nat.mod_lt n (by omega))]
      omega

theorem natRepr_injective : Function.Injective Nat.repr := by
  intro a b h
  have hd : Nat.toDigits 10 a = Nat.toDigits 10 b := by
    have hdata := congrArg String.data h
    simpa [Nat.repr, List.asString] using hdata
  calc a = digitsVal (Nat.toDigits 10 a) := (digitsVal_toDigits a).symm
    _ = digitsVal (Nat.toDigits 10 b) := by rw [hd]
    _ = b := digitsVal_toDigits b

theorem string_append_right_inj {p a b : String} (h : p ++ a = p ++ b) : a = b := by
  have hd := congrArg String.data h
  rw [String.data_append, String.data_append] at hd
  have hab := List.append_cancel_left hd
  cases a
  cases b
  exact congrArg String.mk (by simpa using hab)

/-! ### Lemmas about the directory set and the emitted volumes -/

theorem mem_foldl_insertKey :
    ∀ (l m : List String) (x : String), x ∈ l.foldl insertKey m ↔ x ∈ m ∨ x ∈ l := by
  intro l
  induction l with
  | nil => intro m x; simp
  | cons d ds ih =>
    intro m x
    rw [List.foldl_cons, ih]
    unfold insertKey
    by_cases h : d ∈ m
    · simp only [h, if_true, List.mem_cons]
      constructor
      · rintro (hx | hx)
        · exact Or.inl hx
        · exact Or.inr (Or.inr hx)
      · rintro (hx | rfl | hx)
        · exact Or.inl hx
        · exact Or.inl h
        · exact Or.inr hx
    · simp only [h, if_false, List.mem_append, List.mem_singleton, List.mem_cons]
      tauto

theorem nodup_foldl_insertKey :
    ∀ (l m : List String), m.Nodup → (l.foldl insertKey m).Nodup := by
  intro l
  induction l with
  | nil => intro m h; exact h
  | cons d ds ih =>
    intro m hm
    rw [List.foldl_cons]
    apply ih
    unfold insertKey
    by_cases h : d ∈ m
    · simpa [h] using hm
    · simp [h, List.nodup_append, hm]

theorem volumesFrom_map_hostPath :
    ∀ (ds : List String) (i : Nat), (volumesFrom i ds).map Volume.HostPath = ds := by
  intro ds
  induction ds with
  | nil => intro i; rfl
  | cons d ds ih => intro i; rw [volumesFrom]; simp [ih]

theorem volumesFrom_mem_props :
    ∀ (ds : List String) (i : Nat) (v : Volume), v ∈ volumesFrom i ds →
      v.ReadOnly = true ∧ v.PathType = HostPathDirectoryOrCreate ∧ v.HostPath = v.MountPath := by
  intro ds
  induction ds with
  | nil => intro i v h; simp [volumesFrom] at h
  | cons d ds ih =>
    intro i v h
    rw [volumesFrom] at h
    rcases List.mem_cons.mp h with rfl | h
    · exact ⟨rfl, rfl, rfl⟩
    · exact ih (i + 1) v h

theorem volumesFrom_get_name :
    ∀ (ds : List String) (i j : Nat) (h : j < (volumesFrom i ds).length),
      ((volumesFrom i ds).get ⟨j, h⟩).Name = "log-volume-" ++ Nat.repr (i + j) := by
  intro ds
  induction ds with
  | nil => intro i j h; simp [volumesFrom] at h
  | cons d ds ih =>
    intro i j h
    cases j with
    | zero => rfl
    | succ j' =>
      have hb : j' < (volumesFrom (i + 1) ds).length := Nat.lt_of_succ_lt_succ h
      have heq : ((volumesFrom i (d :: ds)).get ⟨j' + 1, h⟩) =
          ((volumesFrom (i + 1) ds).get ⟨j', hb⟩) := rfl
      rw [heq, ih (i + 1) j' hb]
      congr 2
      omega

theorem name_mem_volumesFrom :
    ∀ (ds : List String) (i : Nat) (s : String), s ∈ (volumesFrom i ds).map Volume.Name →
      ∃ j, s = "log-volume-" ++ Nat.repr (i + j) := by
  intro ds
  induction ds with
  | nil => intro i s h; simp [volumesFrom] at h
  | cons d ds ih =>
    intro i s h
    rw [volumesFrom] at h
    simp only [List.map_cons, List.mem_cons] at h
    rcases h with rfl | h
    · exact ⟨0, by simp⟩
    · obtain ⟨j, hj⟩ := ih (i + 1) s h
      exact ⟨j + 1, by rw [hj]; congr 2; omega⟩

theorem nodup_volumesFrom_names :
    ∀ (ds : List String) (i : Nat), ((volumesFrom i ds).map Volume.Name).Nodup := by
  intro ds
  induction ds with
  | nil => intro i; simp [volumesFrom]
  | cons d ds ih =>
    intro i
    rw [volumesFrom]
    simp only [List.map_cons, List.nodup_cons]
    refine ⟨?_, ih (i + 1)⟩
    intro hmem
    obtain ⟨j, hj⟩ := name_mem_volumesFrom ds (i + 1) _ hmem
    have hi : i = i + 1 + j := natRepr_injective (string_append_right_inj hj)
    omega

/-- C9: the derived log-volume list has exactly one mount descriptor per
unique directory of the listed log-file paths (its host paths are
duplicate-free and a directory appears iff it is the directory of some
listed log file), the descriptors are ordered by lexicographically sorted
directory, each is read-only with create-if-missing path type and mounts
the directory onto itself (`hostPath = mountPath`), and the descriptor at
position `i` is named `log-volume-<i>`, so names are unique. -/
theorem log_volumes_characterization (dir : String → String) (logs : List Logs)
    (clusterLogs : List ClusterLogs) (attaches : List Attach)
    (clusterAttaches : List ClusterAttach) :
    ((GetLogVolumes dir logs clusterLogs attaches clusterAttaches).map Volume.HostPath).Nodup
    ∧ List.Sorted (· ≤ ·)
        ((GetLogVolumes dir logs clusterLogs attaches clusterAttaches).map Volume.HostPath)
    ∧ (∀ d, d ∈ (GetLogVolumes dir logs clusterLogs attaches clusterAttaches).map Volume.HostPath
        ↔ d ∈ collectedLogDirs dir logs clusterLogs attaches clusterAttaches)
    ∧ (∀ v ∈ GetLogVolumes dir logs clusterLogs attaches clusterAttaches,
        v.ReadOnly = true ∧ v.PathType = HostPathDirectoryOrCreate ∧ v.HostPath = v.MountPath)
    ∧ (∀ (i : Nat) (h : i < (GetLogVolumes dir logs clusterLogs attaches clusterAttaches).length),
        ((GetLogVolumes dir logs clusterLogs attaches clusterAttaches).get ⟨i, h⟩).Name =
          "log-volume-" ++ Nat.repr i)
    ∧ ((GetLogVolumes dir logs clusterLogs attaches clusterAttaches).map Volume.Name).Nodup := by
  have hvols : GetLogVolumes dir logs clusterLogs attaches clusterAttaches =
      volumesFrom 0 (List.insertionSort (fun a b => strLe a b = true)
        ((collectedLogDirs dir logs clusterLogs attaches clusterAttaches).foldl insertKey [])) :=
    rfl
  have hmap : (GetLogVolumes dir logs clusterLogs attaches clusterAttaches).map Volume.HostPath =
      List.insertionSort (fun a b => strLe a b = true)
        ((collectedLogDirs dir logs clusterLogs attaches clusterAttaches).foldl insertKey []) := by
    rw [hvols, volumesFrom_map_hostPath]
  have hperm := List.perm_insertionSort (fun a b => strLe a b = true)
    ((collectedLogDirs dir logs clusterLogs attaches clusterAttaches).foldl insertKey [])
  refine ⟨?_, ?_, ?_, ?_, ?_, ?_⟩
  · rw [hmap]
    exact hperm.nodup_iff.mpr
      (nodup_foldl_insertKey (collectedLogDirs dir logs clusterLogs attaches clusterAttaches)
        [] List.nodup_nil)
  · rw [hmap]
    refine List.Pairwise.imp (fun h => (strLe_iff _ _).mp h) ?_
    exact List.sorted_insertionSort (fun a b => strLe a b = true) _
  · intro d
    rw [hmap, hperm.mem_iff,
      mem_foldl_insertKey (collectedLogDirs dir logs clusterLogs attaches clusterAttaches) [] d]
    simp
  · intro v hv
    rw [hvols] at hv
    exact volumesFrom_mem_props _ 0 v hv
  · intro i h
    have hname := volumesFrom_get_name
      (List.insertionSort (fun a b => strLe a b = true)
        ((collectedLogDirs dir logs clusterLogs attaches clusterAttaches).foldl insertKey []))
      0 i h
    rw [Nat.zero_add] at hname
    exact hname
  · rw [hvols]
    exact nodup_volumesFrom_names _ 0

/-- Witness for C9: two log specs pointing at files in the same directory
yield a single derived volume for that directory. -/
theorem log_volumes_characterization_witness :
    ((GetLogVolumes (fun _ => "/var/log")
        [⟨⟨[⟨"/var/log/a.log"⟩, ⟨"/var/log/b.log"⟩]⟩⟩] [] [] []).map Volume.HostPath).Nodup
    ∧ ("/var/log" ∈ (GetLogVolumes (fun _ => "/var/log")
          [⟨⟨[⟨"/var/log/a.log"⟩, ⟨"/var/log/b.log"⟩]⟩⟩] [] [] []).map Volume.HostPath
        ↔ "/var/log" ∈ collectedLogDirs (fun _ => "/var/log")
          [⟨⟨[⟨"/var/log/a.log"⟩, ⟨"/var/log/b.log"⟩]⟩⟩] [] [] [])
    ∧ GetLogVolumes (fun _ => "/var/log")
        [⟨⟨[⟨"/var/log/a.log"⟩, ⟨"/var/log/b.log"⟩]⟩⟩] [] [] [] =
      [{ Name := "log-volume-0", HostPath := "/var/log", MountPath := "/var/log",
         PathType := HostPathDirectoryOrCreate, ReadOnly := true }] :=
  ⟨(log_volumes_characterization (fun _ => "/var/log")
      [⟨⟨[⟨"/var/log/a.log"⟩, ⟨"/var/log/b.log"⟩]⟩⟩] [] [] []).1,
   (log_volumes_characterization (fun _ => "/var/log")
      [⟨⟨[⟨"/var/log/a.log"⟩, ⟨"/var/log/b.log"⟩]⟩⟩] [] [] []).2.2.1 "/var/log",
   by decide⟩

end KwokUtil
